import Mathlib

/-! Verification of the fsearch TCP search server (repository obonyojimmy/fsearch).
Python strings are modelled as `List Char`; `str.split` on a newline is `splitLines`;
each search algorithm of `fsearch/algorithms.py` is translated below, together with
models of `fsearch/server.py`, `fsearch/config.py` and `fsearch/utils.py`. -/

/-- Python `text.split` on the one-character separator `"\n"`: splits at every
newline and keeps empty pieces, so the empty string yields one empty piece. -/
def splitLines : List Char → List (List Char)
  | [] => [[]]
  | c :: cs =>
    if c = '\n' then [] :: splitLines cs
    else
      match splitLines cs with
      | [] => [[c]]
      | l :: ls => (c :: l) :: ls

/-- Translation of `native_search` (algorithms.py lines 50-77): return true iff
some line of the text equals the pattern. -/
def native_search (text pattern : List Char) : Bool :=
  (splitLines text).any (fun line => line == pattern)

/-- Start-of-line test of the MULTILINE anchor `^` of Python `re` at position `i`
of `text`: the start of the string, or just after a newline. -/
def lineStartAt (text : List Char) (i : Nat) : Bool :=
  i == 0 || (text.drop (i - 1)).take 1 == ['\n']

/-- End-of-line test of the MULTILINE anchor `$` of Python `re` at position `j`
of `text`: the end of the string, or just before a newline. -/
def lineEndAt (text : List Char) (j : Nat) : Bool :=
  j == text.length || (text.drop j).take 1 == ['\n']

/-- The compiled regex of `regex_search` is the escape of `pattern` between `^`
and `$` under `re.MULTILINE`; it matches at position `i` iff `^` holds there, the
pattern occurs literally, and `$` holds after it. -/
def matchAt (text pattern : List Char) (i : Nat) : Bool :=
  lineStartAt text i && ((text.drop i).take pattern.length == pattern) &&
    lineEndAt text (i + pattern.length)

/-- Translation of `regex_search` (algorithms.py lines 80-110): `re.search` finds
a match of the anchored MULTILINE regex at some position of the text. -/
def regex_search (text pattern : List Char) : Bool :=
  (List.range (text.length + 1)).any (fun i => matchAt text pattern i)

/-- The polynomial hash of `rabin_karp_search`: prime 101 base, `ord` char codes,
over unbounded Python integers. -/
def rkHash (s : List Char) : Nat :=
  s.foldl (fun h c => 101 * h + c.toNat) 0

/-- Translation of `rabin_karp_search` (algorithms.py lines 113-172): guard for
empty pattern or text, then per line of equal length compare hashes and confirm
by direct comparison. -/
def rabin_karp_search (text pattern : List Char) : Bool :=
  if pattern == [] || text == [] then false
  else
    (splitLines text).any (fun line =>
      line.length == pattern.length &&
        (rkHash pattern == rkHash line && line == pattern))

/-- Loop of `compute_lps` (utils.py lines 100-128), with explicit fuel; the loop
measure `2*i - length` rises strictly each iteration and is bounded by `2*m`, so
the fuel passed by `compute_lps` is never exhausted. Out-of-range list reads use
a default, but under the loop invariant every read is in range. -/
def computeLpsLoop (p : List Char) (m : Nat) :
    Nat → Nat → Nat → List Nat → List Nat
  | 0, _, _, lps => lps
  | fuel + 1, i, length, lps =>
    if i < m then
      if p.getD i 'A' == p.getD length 'A' then
        computeLpsLoop p m fuel (i + 1) (length + 1) (lps.set i (length + 1))
      else if length != 0 then
        computeLpsLoop p m fuel i (lps.getD (length - 1) 0) lps
      else
        computeLpsLoop p m fuel (i + 1) 0 (lps.set i 0)
    else lps

/-- Translation of `compute_lps` (utils.py lines 100-128): longest prefix-suffix
array used by the KMP search. -/
def compute_lps (p : List Char) : List Nat :=
  computeLpsLoop p p.length (2 * p.length + 1) 1 0 (List.replicate p.length 0)

/-- The while loop of `kmp_search_line` (algorithms.py lines 201-235), with
explicit fuel; the measure `2*i - j` rises strictly each iteration and is
bounded by `2*n`, so the fuel passed by `kmp_search_line` is never exhausted. -/
def kmpLoop (p line : List Char) (lps : List Nat) (m n : Nat) :
    Nat → Nat → Nat → Bool
  | 0, _, _ => false
  | fuel + 1, i, j =>
    if i < n then
      let step := if p.getD j 'A' == line.getD i 'A' then (i + 1, j + 1) else (i, j)
      let i1 := step.1
      let j1 := step.2
      if j1 == m then true
      else if i1 < n && !(p.getD j1 'A' == line.getD i1 'A') then
        if j1 != 0 then kmpLoop p line lps m n fuel i1 (lps.getD (j1 - 1) 0)
        else kmpLoop p line lps m n fuel (i1 + 1) j1
      else kmpLoop p line lps m n fuel i1 j1
    else false

/-- Translation of the inner `kmp_search_line` (algorithms.py lines 201-235):
lengths must agree, then run the KMP loop over the line. -/
def kmp_search_line (pattern line : List Char) : Bool :=
  let m := pattern.length
  let n := line.length
  if m != n then false
  else kmpLoop pattern line (compute_lps pattern) m n (2 * n + 1) 0 0

/-- Translation of `kmp_search` (algorithms.py lines 175-242): some line matches
the pattern under `kmp_search_line`. -/
def kmp_search (text pattern : List Char) : Bool :=
  (splitLines text).any (fun line => kmp_search_line pattern line)

/-- Lookup in a Python dict modelled as an association list (first hit wins;
keys are unique by construction of `dinsert`). -/
def dlookup {α β : Type} [BEq α] (d : List (α × β)) (k : α) : Option β :=
  (d.find? (fun e => e.1 == k)).map (fun e => e.2)

/-- Assignment `d[k] = v` on a Python dict modelled as an association list:
an existing key is updated in place, a new key is appended. -/
def dinsert {α β : Type} [BEq α] (d : List (α × β)) (k : α) (v : β) :
    List (α × β) :=
  if (d.find? (fun e => e.1 == k)).isSome then
    d.map (fun e => if e.1 == k then (k, v) else e)
  else d ++ [(k, v)]

/-- The state of the `AhoCorasick` class (algorithms.py lines 271-364): the
`goto`, `output` and `fail` dicts and the fresh-state counter. -/
structure AhoCorasick where
  goto : List ((Nat × Char) × Nat)
  output : List (Nat × List Char)
  fail : List (Nat × Nat)
  new_state : Nat
deriving Repr, DecidableEq

/-- The `AhoCorasick.__init__` constructor: all dicts empty, counter zero. -/
def AhoCorasick.empty : AhoCorasick := ⟨[], [], [], 0⟩

/-- The character loop of `AhoCorasick.add_pattern`: walk or extend the goto
trie, returning the updated automaton and the final state. -/
def addPatternLoop (a : AhoCorasick) (state : Nat) :
    List Char → AhoCorasick × Nat
  | [] => (a, state)
  | c :: cs =>
    match dlookup a.goto (state, c) with
    | some s => addPatternLoop a s cs
    | none =>
      let ns := a.new_state + 1
      let a1 : AhoCorasick :=
        { a with new_state := ns, goto := dinsert a.goto (state, c) ns }
      addPatternLoop a1 ns cs

/-- Translation of `AhoCorasick.add_pattern` (algorithms.py lines 299-312). -/
def AhoCorasick.add_pattern (a : AhoCorasick) (pattern : List Char) :
    AhoCorasick :=
  let r := addPatternLoop a 0 pattern
  { r.1 with output := dinsert r.1.output r.2 pattern }

/-- The characters `c` with `(state, c)` a key of the goto dict, in dict order:
the iteration set of `[key[1] for key in self.goto if key[0] == state]`. -/
def childKeys (goto : List ((Nat × Char) × Nat)) (state : Nat) : List Char :=
  ((goto.filter (fun e => e.1.1 == state)).map (fun e => e.1.2)).dedup

/-- The inner while loop shared by `build_automaton` and `search`: follow fail
links while `(state, key)` is not a goto key and the state is not the root.
Fueled; fail links strictly decrease the state, so fuel `new_state + 1` is
never exhausted. -/
def failWalk (goto : List ((Nat × Char) × Nat)) (fail : List (Nat × Nat))
    (key : Char) : Nat → Nat → Nat
  | 0, state => state
  | fuel + 1, state =>
    if (dlookup goto (state, key)).isNone && state != 0 then
      failWalk goto fail key fuel ((dlookup fail state).getD 0)
    else state

/-- The body of `build_automaton` run for one dequeued state `r`: for every
child key, enqueue the child, compute its fail link through `failWalk`, and
propagate output entries. -/
def buildStep (a : AhoCorasick) (r : Nat) : AhoCorasick × List Nat :=
  (childKeys a.goto r).foldl
    (fun acc key =>
      let a0 := acc.1
      let s := (dlookup a0.goto (r, key)).getD 0
      let st0 := (dlookup a0.fail r).getD 0
      let st := failWalk a0.goto a0.fail key (a0.new_state + 1) st0
      let fs := match dlookup a0.goto (st, key) with
        | some t => t
        | none => 0
      let a1 : AhoCorasick := { a0 with fail := dinsert a0.fail s fs }
      let a2 : AhoCorasick :=
        match dlookup a1.output fs with
        | some out => { a1 with output := dinsert a1.output s out }
        | none => a1
      (a2, acc.2 ++ [s]))
    (a, [])

/-- The BFS while loop of `build_automaton`, fueled: every state is enqueued at
most once (the goto dict is a trie), so fuel `new_state + 1` is never
exhausted. -/
def buildLoop : Nat → AhoCorasick → List Nat → AhoCorasick
  | _, a, [] => a
  | 0, a, _ :: _ => a
  | fuel + 1, a, r :: rest =>
    let p := buildStep a r
    buildLoop fuel p.1 (rest ++ p.2)

/-- Translation of `AhoCorasick.build_automaton` (algorithms.py lines 314-336):
seed the queue with the root's children (fail link 0), then run the BFS. -/
def AhoCorasick.build_automaton (a : AhoCorasick) : AhoCorasick :=
  let roots := (childKeys a.goto 0).map (fun c => (dlookup a.goto (0, c)).getD 0)
  let a1 : AhoCorasick :=
    { a with fail := roots.foldl (fun f s => dinsert f s 0) a.fail }
  buildLoop (a.new_state + 1) a1 roots

/-- The character loop of `AhoCorasick.search`: follow fail links, take the
goto transition when it exists (recording an output hit), else reset to the
root. Indices are Python ints, so the recorded start index is an `Int`. -/
def searchLoop (a : AhoCorasick) :
    Nat → List (Int × List Char) → Nat → List Char → List (Int × List Char)
  | _, results, _, [] => results
  | state, results, index, c :: cs =>
    let st := failWalk a.goto a.fail c (a.new_state + 1) state
    match dlookup a.goto (st, c) with
    | some s =>
      let results1 := match dlookup a.output s with
        | some out => results ++ [((index : Int) - out.length + 1, out)]
        | none => results
      searchLoop a s results1 (index + 1) cs
    | none => searchLoop a 0 results (index + 1) cs

/-- Translation of `AhoCorasick.search` (algorithms.py lines 338-364). -/
def AhoCorasick.search (a : AhoCorasick) (text : List Char) :
    List (Int × List Char) :=
  searchLoop a 0 [] 0 text

/-- Translation of `aho_corasick_search` (algorithms.py lines 245-268): build
the single-pattern automaton, then accept iff some line of equal length yields
a search hit whose matched string equals the pattern. -/
def aho_corasick_search (text pattern : List Char) : Bool :=
  let aho := (AhoCorasick.empty.add_pattern pattern).build_automaton
  (splitLines text).any (fun line =>
    line.length == pattern.length &&
      (aho.search line).any (fun m => m.2 == pattern))

/-- Result of `Server.search` (server.py lines 293-312): dispatch the query to
`regex_search` over the current database snapshot and map the boolean to the
two literal responses. -/
def serverSearch (database query : List Char) : String :=
  if regex_search database query then "STRING EXISTS" else "STRING NOT FOUND"

/-- Python `bytes.rstrip` of NUL bytes: drop trailing `0x00` bytes of the
received payload. -/
def rstripNul (payload : List Nat) : List Nat :=
  (payload.reverse.dropWhile (fun b => b == 0)).reverse

/-- One step of strict UTF-8 decoding: the first scalar value of the byte list
and the remaining bytes, or `none` on malformed input (as Python raises
`UnicodeDecodeError`): overlong encodings, surrogates, and values beyond
`0x10FFFF` are rejected. -/
def utf8DecodeStep : List Nat → Option (Nat × List Nat)
  | [] => none
  | b :: rest =>
    if b < 0x80 then some (b, rest)
    else if b < 0xC2 then none
    else if b < 0xE0 then
      match rest with
      | b1 :: r1 =>
        if 0x80 ≤ b1 && b1 < 0xC0 then some ((b - 0xC0) * 0x40 + (b1 - 0x80), r1)
        else none
      | _ => none
    else if b < 0xF0 then
      match rest with
      | b1 :: b2 :: r2 =>
        if (0x80 ≤ b1 && b1 < 0xC0) && (0x80 ≤ b2 && b2 < 0xC0) then
          let v := (b - 0xE0) * 0x1000 + (b1 - 0x80) * 0x40 + (b2 - 0x80)
          if v < 0x800 || (0xD800 ≤ v && v < 0xE000) then none else some (v, r2)
        else none
      | _ => none
    else if b < 0xF5 then
      match rest with
      | b1 :: b2 :: b3 :: r3 =>
        if (0x80 ≤ b1 && b1 < 0xC0) && (0x80 ≤ b2 && b2 < 0xC0) &&
            (0x80 ≤ b3 && b3 < 0xC0) then
          let v := (b - 0xF0) * 0x40000 + (b1 - 0x80) * 0x1000 +
            (b2 - 0x80) * 0x40 + (b3 - 0x80)
          if v < 0x10000 || 0x110000 ≤ v then none else some (v, r3)
        else none
      | _ => none
    else none

/-- Strict UTF-8 decoding of a byte list into scalar values, fueled by the byte
count (each step consumes at least one byte). `none` models Python's
`UnicodeDecodeError`. -/
def utf8DecodeLoop : Nat → List Nat → Option (List Nat)
  | _, [] => some []
  | 0, _ :: _ => none
  | fuel + 1, bs =>
    match utf8DecodeStep bs with
    | none => none
    | some (v, rest) =>
      match utf8DecodeLoop fuel rest with
      | none => none
      | some vs => some (v :: vs)

/-- Python `bytes.decode` with the strict UTF-8 codec, producing code points. -/
def utf8Decode (payload : List Nat) : Option (List Nat) :=
  utf8DecodeLoop payload.length payload

/-- What `Server._handle_client` (server.py lines 242-276) does with one
connection, as observable actions: the responses sent and the log line kind.
The `try` body strips NULs and decodes; on `UnicodeDecodeError` control jumps
to the generic handler, which only logs at ERROR. -/
structure HandleOutcome where
  sent : List String
  errorLogged : Bool
deriving Repr, DecidableEq

/-- Decoded code points rendered as the query characters; decoding yields
scalar values, so the conversion is total. -/
def codePointsToChars (vs : List Nat) : List Char :=
  vs.map (fun v => Char.ofNat v)

/-- Translation of `Server._handle_client` (server.py lines 242-276) on an
already-received payload: decode and answer, or on decode failure fall into
the exception handler that logs and sends nothing. -/
def handle_client (database : List Char) (payload : List Nat) : HandleOutcome :=
  match utf8Decode (rstripNul payload) with
  | some vs => { sent := [serverSearch database (codePointsToChars vs)], errorLogged := false }
  | none => { sent := [], errorLogged := true }

/-- The outcome of `Server.connect` (server.py lines 188-206). -/
inductive ConnectOutcome
  | receiving
  | exited (status : Nat)
deriving Repr, DecidableEq

/-- What `bind` does at the OS level, as seen by `connect`. -/
inductive BindResult
  | ok
  | oserror
deriving Repr, DecidableEq

/-- Translation of `Server.connect` (server.py lines 188-206): a successful
bind enters the accept loop; an `OSError` from `bind` reaches the
`except OSError` clause, which calls `sys.exit(0)`. -/
def connectOutcome : BindResult → ConnectOutcome
  | BindResult.ok => ConnectOutcome.receiving
  | BindResult.oserror => ConnectOutcome.exited 0

/-- A filesystem modelled as the list of existing paths, for the certificate
logic of `load_ssl` and `generate_certs`. -/
def pathExists (fs : List String) (p : String) : Bool := fs.contains p

/-- Outcome of `generate_certs` (utils.py lines 131-169) with the default
certificate directory: the returned (certfile, keyfile) paths and whether the
openssl subprocess ran (writing both files). -/
structure CertsOutcome where
  certfile : String
  keyfile : String
  generated : Bool
deriving Repr, DecidableEq

/-- Translation of `generate_certs` (utils.py lines 131-169): if both files in
the cert directory exist they are returned unchanged, otherwise openssl
generates the pair there. `os.path.join` is path concatenation. -/
def generate_certs (fs : List String) (cert_dir : String) : CertsOutcome :=
  let certfile := cert_dir ++ "/server.crt"
  let keyfile := cert_dir ++ "/server.key"
  if pathExists fs certfile && pathExists fs keyfile then
    { certfile := certfile, keyfile := keyfile, generated := false }
  else
    { certfile := certfile, keyfile := keyfile, generated := true }

/-- Translation of the certificate-selection logic of `Server.load_ssl`
(server.py lines 157-180): only when neither the configured certfile nor the
configured keyfile exists are certificates generated (into `./.certs`);
otherwise the configured paths are kept. -/
def load_ssl_certs (fs : List String) (certfile keyfile : String) :
    CertsOutcome :=
  if !(pathExists fs certfile) && !(pathExists fs keyfile) then
    generate_certs fs "./.certs"
  else
    { certfile := certfile, keyfile := keyfile, generated := false }

/-- A Python runtime value held by a `Config` field: the relevant cases for the
boolean fields are an actual bool (the dataclass default `False` when the key is
absent) or the raw string from the INI parser (the boolean conversion in
`Config.__init__` is dead code, see `configBoolField` below). -/
inductive PyValue
  | str (s : String)
  | bool (b : Bool)
deriving Repr, DecidableEq

/-- Python truthiness, as `if self.configs.reread_on_query:` tests the parsed
value: a bool is itself, a string is truthy iff it is non-empty. -/
def pyTruthy : PyValue → Bool
  | PyValue.str s => !(s == "")
  | PyValue.bool b => b

/-- The configuration fields of `Config` that the accept loop consults.
`reread_on_query` carries the value exactly as `read_config` leaves it: the raw
INI string when the key is present (no boolean conversion happens), or the
dataclass default `False` when it is absent. -/
structure ServerConfig where
  linuxpath : String
  reread_on_query : PyValue
deriving Repr, DecidableEq

/-- The mutable server fields touched by one iteration of `Server.receive`. -/
structure ServerState where
  configs : ServerConfig
  database : List Char
deriving Repr, DecidableEq

/-- Observable actions of one iteration of the accept loop. -/
inductive ReceiveEvent
  | readConfig
  | loadDatabase
  | dispatchWorker
deriving Repr, DecidableEq

/-- Translation of the body of the accept loop of `Server.receive` (server.py
lines 208-241) after a connection is accepted: re-read the configs from the
config path (the parse result is `fileConfig`), reload the database through
`load_database`/`read_file` (the current file content is `corpusNow`) when the
newly parsed `reread_on_query` value is truthy in Python's sense — the branch
is `if self.configs.reread_on_query:` on the raw parsed value — then start the
worker thread. -/
def receiveStep (st : ServerState) (fileConfig : ServerConfig)
    (corpusNow : List Char) : ServerState × List ReceiveEvent :=
  let configs := fileConfig
  let database :=
    if pyTruthy configs.reread_on_query then corpusNow else st.database
  (⟨configs, database⟩,
    [ReceiveEvent.readConfig] ++
      (if pyTruthy configs.reread_on_query then [ReceiveEvent.loadDatabase]
        else []) ++
      [ReceiveEvent.dispatchWorker])

/-- Result of `read_file` (utils.py lines 73-97): either the raised
`FileNotFoundError` or the returned string. -/
inductive ReadFileResult
  | fileNotFound
  | ok (contents : List Char)
deriving Repr, DecidableEq

/-- Translation of `read_file` (utils.py lines 73-97): raise iff `os.path.isfile`
is false at call time; otherwise `readlines` either yields the line list
(joined by `"".join`) or throws, in which case the empty string is returned.
`readResult = none` models an exception inside the `try` block. -/
def read_file (isfile : Bool) (readResult : Option (List (List Char))) :
    ReadFileResult :=
  if !isfile then ReadFileResult.fileNotFound
  else
    match readResult with
    | none => ReadFileResult.ok []
    | some lines => ReadFileResult.ok lines.flatten

/-- The comparison `f.type == "bool"` of `Config.__init__` (config.py line 66):
`config.py` does not postpone annotation evaluation, so `f.type` is the class
`bool` itself and comparing it with the string `"bool"` is always false. -/
def fieldTypeEqBoolString : Bool := false

/-- Python `str.lower` on one character, for the ASCII range the boolean
configuration values use. -/
def pyLowerChar (c : Char) : Char :=
  if 'A' ≤ c ∧ c ≤ 'Z' then Char.ofNat (c.toNat + 32) else c

/-- Python `str.lower` over the characters of a value. -/
def pyLower (s : List Char) : List Char := s.map pyLowerChar

/-- The tuple `("yes", "true", "on" "1")` of `Config.__init__` (config.py line
67): Python juxtaposition concatenates the adjacent string literals, so the
tuple has three elements, the last being `"on1"`. -/
def truthyStrings : List (List Char) :=
  ["yes".toList, "true".toList, "on1".toList]

/-- The conversion expression `val.lower() in ("yes", "true", "on" "1")` of
`Config.__init__` (config.py line 67). -/
def strToBool (v : String) : Bool := truthyStrings.contains (pyLower v.toList)

/-- Translation of the boolean-field branch of `Config.__init__` (config.py
lines 62-72) for a supplied value: the conversion runs only when
`f.type == "bool"` holds and the value is not already a bool. -/
def configBoolField (val : PyValue) : PyValue :=
  match val with
  | PyValue.bool b => PyValue.bool b
  | PyValue.str s =>
    if fieldTypeEqBoolString then PyValue.bool (strToBool s) else PyValue.str s

/-- Inverse of `splitLines`: rejoin lines with single newlines. -/
def joinLines : List (List Char) → List Char
  | [] => []
  | l :: ls =>
    match ls with
    | [] => l
    | _ :: _ => l ++ '\n' :: joinLines ls

lemma splitLines_ne_nil (t : List Char) : splitLines t ≠ [] := by
  induction t with
  | nil => simp [splitLines]
  | cons c cs ih =>
    simp only [splitLines]
    split
    · simp
    · cases h : splitLines cs with
      | nil => simp
      | cons l ls => simp

lemma splitLines_newline (cs : List Char) :
    splitLines ('\n' :: cs) = [] :: splitLines cs := by
  simp [splitLines]

lemma splitLines_cons (c : Char) (cs : List Char) (hc : c ≠ '\n') :
    ∃ l ls, splitLines cs = l :: ls ∧ splitLines (c :: cs) = (c :: l) :: ls := by
  cases h : splitLines cs with
  | nil => exact absurd h (splitLines_ne_nil cs)
  | cons l ls =>
    refine ⟨l, ls, rfl, ?_⟩
    simp [splitLines, hc, h]

lemma joinLines_splitLines (t : List Char) : joinLines (splitLines t) = t := by
  induction t with
  | nil => simp [splitLines, joinLines]
  | cons c cs ih =>
    by_cases hc : c = '\n'
    · subst hc
      rw [splitLines_newline]
      cases h : splitLines cs with
      | nil => exact absurd h (splitLines_ne_nil cs)
      | cons l ls =>
        rw [h] at ih
        have hj : joinLines ([] :: l :: ls) = '\n' :: joinLines (l :: ls) := rfl
        rw [hj, ih]
    · obtain ⟨l, ls, h1, h2⟩ := splitLines_cons c cs hc
      rw [h2]
      rw [h1] at ih
      cases ls with
      | nil => simpa [joinLines] using congrArg (c :: ·) ih
      | cons l2 ls2 => simpa [joinLines] using congrArg (c :: ·) ih

lemma no_newline_of_mem_splitLines (t : List Char) :
    ∀ l ∈ splitLines t, '\n' ∉ l := by
  induction t with
  | nil =>
    intro l hl
    simp [splitLines] at hl
    simp [hl]
  | cons c cs ih =>
    by_cases hc : c = '\n'
    · subst hc
      rw [splitLines_newline]
      intro l hl
      rcases List.mem_cons.mp hl with h | h
      · simp [h]
      · exact ih l h
    · obtain ⟨l0, ls, h1, h2⟩ := splitLines_cons c cs hc
      rw [h2]
      intro l hl
      rcases List.mem_cons.mp hl with h | h
      · subst h
        intro hmem
        rcases List.mem_cons.mp hmem with h | h
        · exact hc h.symm
        · exact ih l0 (h1 ▸ List.mem_cons_self l0 ls) h
      · exact ih l (h1 ▸ List.mem_cons_of_mem l0 h)

lemma getD_set_ne {α : Type} (xs : List α) (v d : α) {i j : Nat} (h : i ≠ j) :
    (xs.set i v).getD j d = xs.getD j d := by
  simp [List.getD_eq_getElem?_getD, List.getElem?_set_ne h]

lemma getD_set_self {α : Type} (xs : List α) (v d : α) {i : Nat}
    (h : i < xs.length) : (xs.set i v).getD i d = v := by
  simp [List.getD_eq_getElem?_getD, List.getElem?_set_eq_of_lt _ h]

lemma take_succ_getD {α : Type} (l : List α) (n : Nat) (d : α)
    (h : n < l.length) : l.take (n + 1) = l.take n ++ [l.getD n d] := by
  rw [List.take_succ, List.getElem?_eq_getElem h, List.getD_eq_getElem?_getD,
    List.getElem?_eq_getElem h]
  rfl

lemma drop_append_le {α : Type} (l r : List α) {n : Nat} (h : n ≤ l.length) :
    (l ++ r).drop n = l.drop n ++ r := by
  rw [List.drop_append_eq_append_drop, Nat.sub_eq_zero_of_le h, List.drop_zero]

lemma take_append_le {α : Type} (l r : List α) {n : Nat} (h : n ≤ l.length) :
    (l ++ r).take n = l.take n := by
  rw [List.take_append_eq_append_take, Nat.sub_eq_zero_of_le h, List.take_zero,
    List.append_nil]

lemma drop_append_right {α : Type} (l r : List α) (j : Nat) :
    (l ++ r).drop (l.length + j) = r.drop j := by
  rw [List.drop_append_eq_append_drop,
    List.drop_eq_nil_of_le (Nat.le_add_right _ _), Nat.add_sub_cancel_left,
    List.nil_append]

lemma drop_add {α : Type} (l : List α) (m n : Nat) :
    (l.drop m).drop n = l.drop (m + n) := by
  rw [List.drop_drop, Nat.add_comm]

/-- `s` is the length of a suffix of the first `t` characters of `line` that is
also the prefix of `p` of length `s`: the invariant shared by the KMP prefix
function, the KMP scan and the Aho-Corasick fail links. -/
def TakeSuffix (p line : List Char) (t s : Nat) : Prop :=
  p.take s = (line.take t).drop (t - s)

lemma takeSuffix_zero (p line : List Char) (t : Nat) :
    TakeSuffix p line t 0 := by
  unfold TakeSuffix
  rw [List.take_zero]
  symm
  apply List.drop_eq_nil_of_le
  rw [List.length_take]
  omega

lemma takeSuffix_trans {p q line : List Char} {t s u : Nat}
    (h1 : TakeSuffix p line t s) (h2 : TakeSuffix q p s u)
    (hs : s ≤ t) (hu : u ≤ s) : TakeSuffix q line t u := by
  unfold TakeSuffix at *
  rw [h2, h1, drop_add]
  have harith : t - s + (s - u) = t - u := by omega
  rw [harith]

lemma takeSuffix_extend {p line : List Char} {t s : Nat} (d : Char)
    (h1 : TakeSuffix p line t s) (hsp : s < p.length) (htl : t < line.length)
    (hst : s ≤ t) (hc : p.getD s d = line.getD t d) :
    TakeSuffix p line (t + 1) (s + 1) := by
  unfold TakeSuffix at *
  have harith : t + 1 - (s + 1) = t - s := by omega
  rw [harith, take_succ_getD p s d hsp, take_succ_getD line t d htl]
  have hlt : t - s ≤ (line.take t).length := by
    rw [List.length_take]
    omega
  rw [drop_append_le _ _ hlt, h1, hc]

lemma takeSuffix_full {p line : List Char} {t : Nat}
    (h : TakeSuffix p line t p.length) (ht : t ≤ line.length)
    (hlen : line.length = p.length) : t = p.length ∧ line = p := by
  unfold TakeSuffix at h
  have hlen2 := congrArg List.length h
  rw [List.length_take, List.length_drop, List.length_take] at hlen2
  have ht2 : t = p.length := by
    rw [Nat.min_self] at hlen2
    omega
  subst ht2
  refine ⟨rfl, ?_⟩
  rw [Nat.sub_self, List.drop_zero, List.take_length] at h
  rw [← hlen, List.take_length] at h
  exact h.symm

lemma bool_eq_of_iff {a b : Bool} (h : a = true ↔ b = true) : a = b := by
  cases a <;> cases b <;> simp_all

lemma nat_beq_congr {a b c d : Nat} (h : (a = b) ↔ (c = d)) :
    (a == b) = (c == d) := by
  by_cases h2 : c = d
  · simp [h2, h.mpr h2]
  · have h3 : ¬ a = b := fun ha => h2 (h.mp ha)
    simp [h2, h3]

lemma newline_mem_of_drop_take {l : List Char} {i : Nat}
    (h : (l.drop i).take 1 = ['\n']) : '\n' ∈ l := by
  have h1 : '\n' ∈ (l.drop i).take 1 := by
    rw [h]
    exact List.mem_singleton_self _
  exact List.drop_subset i l (List.take_subset 1 _ h1)

lemma matchAt_single (l p : List Char) (hl : '\n' ∉ l) (hp : '\n' ∉ p)
    (i : Nat) : matchAt l p i = true ↔ (i = 0 ∧ l = p) := by
  simp only [matchAt, lineStartAt, lineEndAt, Bool.and_eq_true, Bool.or_eq_true,
    beq_iff_eq]
  constructor
  · rintro ⟨⟨hstart, hseg⟩, hend⟩
    have hi0 : i = 0 := by
      rcases hstart with h | h
      · exact h
      · exact absurd (newline_mem_of_drop_take h) hl
    subst hi0
    rw [List.drop_zero] at hseg
    refine ⟨rfl, ?_⟩
    rcases hend with h | h
    · have hlen : p.length = l.length := by omega
      rw [← hseg, hlen, List.take_length]
    · rw [Nat.zero_add] at h
      exact absurd (newline_mem_of_drop_take h) hl
  · rintro ⟨rfl, rfl⟩
    refine ⟨⟨Or.inl rfl, ?_⟩, Or.inl (by omega)⟩
    rw [List.drop_zero, List.take_length]

lemma matchAt_le_length {t p : List Char} {i : Nat}
    (h : matchAt t p i = true) : i ≤ t.length := by
  by_contra hgt
  push_neg at hgt
  simp only [matchAt, lineStartAt, Bool.and_eq_true, Bool.or_eq_true,
    beq_iff_eq] at h
  rcases h.1.1 with h0 | h0
  · omega
  · rw [List.drop_eq_nil_of_le (by omega)] at h0
    simp at h0

lemma regex_search_true (t p : List Char) :
    regex_search t p = true ↔ ∃ i, matchAt t p i = true := by
  simp only [regex_search, List.any_eq_true, List.mem_range]
  constructor
  · rintro ⟨i, _, h⟩
    exact ⟨i, h⟩
  · rintro ⟨i, h⟩
    exact ⟨i, by have := matchAt_le_length h; omega, h⟩

lemma lineStartAt_append_shift (l R : List Char) (k : Nat) :
    lineStartAt (l ++ '\n' :: R) (l.length + 1 + k) = lineStartAt R k := by
  cases k with
  | zero =>
    have hidx : l.length + 1 + 0 - 1 = l.length := by omega
    simp [lineStartAt, hidx, List.drop_left]
  | succ k =>
    have hidx : l.length + 1 + (k + 1) - 1 = l.length + (1 + k) := by omega
    simp only [lineStartAt, hidx, drop_append_right]
    have h2 : ('\n' :: R).drop (1 + k) = R.drop k := by
      rw [Nat.add_comm]
      exact List.drop_succ_cons
    rw [h2]
    have h3 : (l.length + 1 + (k + 1) == 0) = false := by simp
    have h4 : (k + 1 == 0) = false := by simp
    rw [h3, h4]
    simp

lemma drop_append_newline (l R : List Char) (j : Nat) :
    (l ++ '\n' :: R).drop (l.length + 1 + j) = R.drop j := by
  have hidx : l.length + 1 + j = l.length + (1 + j) := by omega
  rw [hidx, drop_append_right]
  rw [Nat.add_comm 1 j]
  exact List.drop_succ_cons

lemma lineEndAt_append_shift (l R p : List Char) (k : Nat) :
    lineEndAt (l ++ '\n' :: R) (l.length + 1 + k + p.length) =
      lineEndAt R (k + p.length) := by
  simp only [lineEndAt]
  have e1 : (l.length + 1 + k + p.length == (l ++ '\n' :: R).length) =
      (k + p.length == R.length) := by
    apply nat_beq_congr
    simp [List.length_append]
    omega
  have hidx : l.length + 1 + k + p.length = l.length + 1 + (k + p.length) := by
    omega
  rw [e1, hidx, drop_append_newline]

lemma matchAt_append_shift (l R p : List Char) (k : Nat) :
    matchAt (l ++ '\n' :: R) p (l.length + 1 + k) = matchAt R p k := by
  simp only [matchAt]
  rw [lineStartAt_append_shift, drop_append_newline, lineEndAt_append_shift]

lemma matchAt_append_head (l R p : List Char) (hl : '\n' ∉ l) (hp : '\n' ∉ p)
    (i : Nat) (hi : i ≤ l.length) :
    matchAt (l ++ '\n' :: R) p i = true ↔ (i = 0 ∧ l = p) := by
  simp only [matchAt, lineStartAt, lineEndAt, Bool.and_eq_true, Bool.or_eq_true,
    beq_iff_eq]
  constructor
  · rintro ⟨⟨hstart, hseg⟩, hend⟩
    have hi0 : i = 0 := by
      by_contra hne
      rcases hstart with h | h
      · exact hne h
      · have h1 : i - 1 ≤ l.length := by omega
        rw [drop_append_le _ _ h1] at h
        have h2 : (1 : Nat) ≤ (l.drop (i - 1)).length := by
          rw [List.length_drop]
          omega
        rw [take_append_le _ _ h2] at h
        exact absurd (newline_mem_of_drop_take h) hl
    subst hi0
    rw [List.drop_zero] at hseg
    have hple : p.length ≤ l.length := by
      by_contra hgt
      push_neg at hgt
      rw [List.take_append_eq_append_take,
        List.take_of_length_le (by omega)] at hseg
      have h3 : ∃ k, p.length - l.length = k + 1 := ⟨p.length - l.length - 1, by omega⟩
      obtain ⟨k, hk⟩ := h3
      rw [hk, List.take_succ_cons] at hseg
      have : '\n' ∈ p := by
        rw [← hseg]
        exact List.mem_append_right l (List.mem_cons_self _ _)
      exact absurd this hp
    rw [take_append_le _ _ hple] at hseg
    refine ⟨rfl, ?_⟩
    rcases hend with h | h
    · rw [Nat.zero_add, List.length_append, List.length_cons] at h
      omega
    · rw [Nat.zero_add] at h
      by_cases heq : p.length = l.length
      · rw [← hseg, heq, List.take_length]
      · exfalso
        rw [drop_append_le _ _ hple] at h
        have h2 : (1 : Nat) ≤ (l.drop p.length).length := by
          rw [List.length_drop]
          omega
        rw [take_append_le _ _ h2] at h
        exact absurd (newline_mem_of_drop_take h) hl
  · rintro ⟨rfl, rfl⟩
    refine ⟨⟨Or.inl rfl, ?_⟩, Or.inr ?_⟩
    · rw [List.drop_zero, take_append_le _ _ (Nat.le_refl _), List.take_length]
    · rw [Nat.zero_add, List.drop_left]
      rfl

lemma joinLines_cons (l : List Char) (ls : List (List Char)) (h : ls ≠ []) :
    joinLines (l :: ls) = l ++ '\n' :: joinLines ls := by
  cases ls with
  | nil => exact absurd rfl h
  | cons a as => rfl

lemma regex_matches_join (p : List Char) (hp : '\n' ∉ p) :
    ∀ lines : List (List Char), lines ≠ [] → (∀ l ∈ lines, '\n' ∉ l) →
      ((∃ i, matchAt (joinLines lines) p i = true) ↔ p ∈ lines) := by
  intro lines
  induction lines with
  | nil => intro h; exact absurd rfl h
  | cons l ls ih =>
    intro _ hnl
    by_cases hls : ls = []
    · subst hls
      have hl : '\n' ∉ l := hnl l (List.mem_cons_self _ _)
      constructor
      · rintro ⟨i, hi⟩
        have hsi := (matchAt_single l p hl hp i).mp hi
        simp [hsi.2]
      · intro hmem
        have hpl : p = l := by simpa using hmem
        exact ⟨0, (matchAt_single l p hl hp 0).mpr ⟨rfl, hpl.symm⟩⟩
    · have hj : joinLines (l :: ls) = l ++ '\n' :: joinLines ls :=
        joinLines_cons l ls hls
      have hl : '\n' ∉ l := hnl l (List.mem_cons_self _ _)
      have hnl2 : ∀ x ∈ ls, '\n' ∉ x := fun x hx =>
        hnl x (List.mem_cons_of_mem _ hx)
      have ihh := ih hls hnl2
      rw [hj]
      constructor
      · rintro ⟨i, hi⟩
        by_cases hile : i ≤ l.length
        · have hh := (matchAt_append_head l (joinLines ls) p hl hp i hile).mp hi
          exact List.mem_cons.mpr (Or.inl hh.2.symm)
        · push_neg at hile
          obtain ⟨k, hk⟩ : ∃ k, i = l.length + 1 + k :=
            ⟨i - l.length - 1, by omega⟩
          rw [hk, matchAt_append_shift] at hi
          exact List.mem_cons.mpr (Or.inr (ihh.mp ⟨k, hi⟩))
      · intro hmem
        rcases List.mem_cons.mp hmem with h | h
        · exact ⟨0, (matchAt_append_head l (joinLines ls) p hl hp 0
            (Nat.zero_le _)).mpr ⟨rfl, h.symm⟩⟩
        · obtain ⟨k, hk⟩ := ihh.mpr h
          exact ⟨l.length + 1 + k, by rw [matchAt_append_shift]; exact hk⟩

lemma native_search_true (t p : List Char) :
    native_search t p = true ↔ p ∈ splitLines t := by
  simp only [native_search, List.any_eq_true, beq_iff_eq]
  constructor
  · rintro ⟨l, hl, rfl⟩
    exact hl
  · intro h
    exact ⟨p, h, rfl⟩

lemma regex_eq_native (t p : List Char) (hp : '\n' ∉ p) :
    regex_search t p = native_search t p := by
  apply bool_eq_of_iff
  rw [regex_search_true, native_search_true]
  have h1 := regex_matches_join p hp (splitLines t) (splitLines_ne_nil t)
    (no_newline_of_mem_splitLines t)
  rw [joinLines_splitLines] at h1
  exact h1

lemma any_congr {α : Type} (l : List α) (f g : α → Bool)
    (h : ∀ x ∈ l, f x = g x) : l.any f = l.any g := by
  induction l with
  | nil => rfl
  | cons a as ih =>
    simp only [List.any_cons]
    rw [h a (List.mem_cons_self _ _), ih (fun x hx => h x (List.mem_cons_of_mem _ hx))]

lemma rabin_karp_eq_native (t p : List Char) (hp : p ≠ []) :
    rabin_karp_search t p = native_search t p := by
  unfold rabin_karp_search native_search
  by_cases ht : t = []
  · subst ht
    have h1 : ((p == []) || (([] : List Char) == [])) = true := by simp
    rw [if_pos h1]
    have h2 : (([] : List Char) == p) = false := by
      rw [beq_eq_false_iff_ne]
      exact fun h => hp h.symm
    simp [splitLines, h2]
  · rw [if_neg (by simp [hp, ht])]
    apply any_congr
    intro line _
    by_cases hlp : line = p
    · subst hlp
      simp
    · have h2 : (line == p) = false := by simp [hlp]
      rw [h2]
      simp

lemma getD_replicate {α : Type} (n k : Nat) (a d : α) :
    (List.replicate n a).getD k d = if k < n then a else d := by
  simp only [List.getD_eq_getElem?_getD, List.getElem?_replicate]
  split <;> rfl

/-- Soundness of the prefix-function array: every entry is at most its index
and names a true prefix-suffix length (maximality is not needed by the KMP
correctness argument). -/
def LpsSound (p : List Char) (lps : List Nat) : Prop :=
  lps.length = p.length ∧
    ∀ k, k < p.length →
      lps.getD k 0 ≤ k ∧ TakeSuffix p p (k + 1) (lps.getD k 0)

lemma computeLpsLoop_sound (p : List Char) :
    ∀ fuel i length lps,
      1 ≤ i →
      length < i →
      lps.length = p.length →
      TakeSuffix p p i length →
      (∀ k, k < i → k < p.length →
        lps.getD k 0 ≤ k ∧ TakeSuffix p p (k + 1) (lps.getD k 0)) →
      2 * (p.length - i) + length + 1 ≤ fuel →
      LpsSound p (computeLpsLoop p p.length fuel i length lps) := by
  intro fuel
  induction fuel with
  | zero =>
    intro i length lps _ _ _ _ _ hfuel
    omega
  | succ fuel ih =>
    intro i length lps hi1 hli hlen hts hents hfuel
    by_cases him : i < p.length
    · by_cases hc : (p.getD i 'A' == p.getD length 'A') = true
      · have hstep : computeLpsLoop p p.length (fuel + 1) i length lps =
            computeLpsLoop p p.length fuel (i + 1) (length + 1)
              (lps.set i (length + 1)) := by
          simp only [computeLpsLoop, if_pos him, hc, if_true]
        rw [hstep]
        have hext : TakeSuffix p p (i + 1) (length + 1) :=
          takeSuffix_extend 'A' hts (by omega) him (by omega)
            (beq_iff_eq.mp hc).symm
        apply ih
        · omega
        · omega
        · rw [List.length_set]; exact hlen
        · exact hext
        · intro k hk hkm
          by_cases hki : k = i
          · subst hki
            rw [getD_set_self _ _ _ (by omega : k < lps.length)]
            exact ⟨by omega, hext⟩
          · rw [getD_set_ne _ _ _ (fun h => hki h.symm)]
            exact hents k (by omega) hkm
        · omega
      · by_cases hl0 : length = 0
        · subst hl0
          have hstep : computeLpsLoop p p.length (fuel + 1) i 0 lps =
              computeLpsLoop p p.length fuel (i + 1) 0 (lps.set i 0) := by
            simp only [computeLpsLoop, if_pos him, hc, Bool.false_eq_true,
              if_false]
            simp
          rw [hstep]
          apply ih
          · omega
          · omega
          · rw [List.length_set]; exact hlen
          · exact takeSuffix_zero p p (i + 1)
          · intro k hk hkm
            by_cases hki : k = i
            · subst hki
              rw [getD_set_self _ _ _ (by omega : k < lps.length)]
              exact ⟨by omega, takeSuffix_zero p p (k + 1)⟩
            · rw [getD_set_ne _ _ _ (fun h => hki h.symm)]
              exact hents k (by omega) hkm
          · omega
        · have hstep : computeLpsLoop p p.length (fuel + 1) i length lps =
              computeLpsLoop p p.length fuel i (lps.getD (length - 1) 0)
                lps := by
            simp only [computeLpsLoop, if_pos him, hc, Bool.false_eq_true,
              if_false]
            have hne : (length != 0) = true := by simp [hl0]
            rw [if_pos hne]
          rw [hstep]
          obtain ⟨hle, hent⟩ := hents (length - 1) (by omega) (by omega)
          have hl1 : length - 1 + 1 = length := by omega
          rw [hl1] at hent
          apply ih
          · exact hi1
          · omega
          · exact hlen
          · exact takeSuffix_trans hts hent (by omega) (by omega)
          · exact hents
          · omega
    · have hstep : computeLpsLoop p p.length (fuel + 1) i length lps = lps := by
        simp only [computeLpsLoop, if_neg him]
      rw [hstep]
      exact ⟨hlen, fun k hkm => hents k (by omega) hkm⟩

lemma compute_lps_sound (p : List Char) : LpsSound p (compute_lps p) := by
  unfold compute_lps
  apply computeLpsLoop_sound
  · omega
  · omega
  · simp
  · exact takeSuffix_zero p p 1
  · intro k hk hkm
    have hk0 : k = 0 := by omega
    subst hk0
    rw [getD_replicate, if_pos hkm]
    exact ⟨Nat.le_refl 0, takeSuffix_zero p p 1⟩
  · omega

lemma kmpLoop_sound (p line : List Char) (lps : List Nat)
    (hlps : LpsSound p lps) (hmn : line.length = p.length) :
    ∀ fuel i j,
      j ≤ i → i ≤ line.length → j < p.length →
      TakeSuffix p line i j →
      kmpLoop p line lps p.length line.length fuel i j = true →
      line = p := by
  intro fuel
  induction fuel with
  | zero =>
    intro i j _ _ _ _ hres
    simp [kmpLoop] at hres
  | succ fuel ih =>
    intro i j hji hin hjm hts hres
    by_cases hin2 : i < line.length
    · by_cases hc : (p.getD j 'A' == line.getD i 'A') = true
      · have hext : TakeSuffix p line (i + 1) (j + 1) :=
          takeSuffix_extend 'A' hts hjm hin2 hji (beq_iff_eq.mp hc)
        by_cases hjm1 : j + 1 = p.length
        · exact (takeSuffix_full (hjm1 ▸ hext) (by omega) hmn).2
        · simp only [kmpLoop, if_pos hin2, hc, if_true] at hres
          have h1 : (j + 1 == p.length) = false := by simp [hjm1]
          simp only [h1, Bool.false_eq_true, if_false] at hres
          by_cases hcond :
              (decide (i + 1 < line.length) &&
                !(p.getD (j + 1) 'A' == line.getD (i + 1) 'A')) = true
          · simp only [hcond, if_true] at hres
            have h2 : (j + 1 != 0) = true := by simp
            simp only [h2, if_true] at hres
            have h3 : j + 1 - 1 = j := by omega
            rw [h3] at hres
            obtain ⟨hle, hent⟩ := hlps.2 j hjm
            exact ih (i + 1) (lps.getD j 0) (by omega) (by omega) (by omega)
              (takeSuffix_trans hext hent (by omega) (by omega)) hres
          · simp only [hcond, Bool.false_eq_true, if_false] at hres
            exact ih (i + 1) (j + 1) (by omega) (by omega) (by omega) hext hres
      · simp only [kmpLoop, if_pos hin2, hc, Bool.false_eq_true, if_false]
          at hres
        have hjm2 : (j == p.length) = false := by simp; omega
        simp only [hjm2, Bool.false_eq_true, if_false] at hres
        have hcond : (decide (i < line.length) && !false) = true := by
          simp [hin2]
        simp only [hcond, if_true] at hres
        by_cases hj0 : j = 0
        · subst hj0
          have h2 : ((0 : Nat) != 0) = false := by simp
          simp only [h2, Bool.false_eq_true, if_false] at hres
          exact ih (i + 1) 0 (by omega) (by omega) (by omega)
            (takeSuffix_zero p line (i + 1)) hres
        · have h2 : (j != 0) = true := by simp [hj0]
          simp only [h2, if_true] at hres
          obtain ⟨hle, hent⟩ := hlps.2 (j - 1) (by omega)
          have h3 : j - 1 + 1 = j := by omega
          rw [h3] at hent
          exact ih i (lps.getD (j - 1) 0) (by omega) hin (by omega)
            (takeSuffix_trans hts hent (by omega) (by omega)) hres
    · simp only [kmpLoop, if_neg hin2] at hres
      exact absurd hres (by simp)

lemma kmpLoop_complete (p : List Char) (lps : List Nat) :
    ∀ fuel k, k < p.length → p.length - k ≤ fuel →
      kmpLoop p p lps p.length p.length fuel k k = true := by
  intro fuel
  induction fuel with
  | zero =>
    intro k hk hf
    omega
  | succ fuel ih =>
    intro k hk hf
    have hc : (p.getD k 'A' == p.getD k 'A') = true := by simp
    simp only [kmpLoop, if_pos hk, hc, if_true]
    by_cases hk1 : k + 1 = p.length
    · have h1 : (k + 1 == p.length) = true := by simp [hk1]
      simp only [h1, if_true]
    · have h1 : (k + 1 == p.length) = false := by simp [hk1]
      simp only [h1, Bool.false_eq_true, if_false]
      have h2 : (decide (k + 1 < p.length) &&
          !(p.getD (k + 1) 'A' == p.getD (k + 1) 'A')) = false := by simp
      simp only [h2, Bool.false_eq_true, if_false]
      exact ih (k + 1) (by omega) (by omega)

lemma kmp_search_line_eq (p line : List Char) (hp : p ≠ []) :
    kmp_search_line p line = (line == p) := by
  have hp0 : 0 < p.length := List.length_pos.mpr hp
  unfold kmp_search_line
  by_cases hmn : p.length = line.length
  · have hne : (p.length != line.length) = false := by simp [hmn]
    simp only [hne, Bool.false_eq_true, if_false]
    by_cases hlp : line = p
    · subst hlp
      have hr : (line == line) = true := by simp
      rw [hr]
      exact kmpLoop_complete line (compute_lps line) (2 * line.length + 1) 0
        (by omega) (by omega)
    · have h2 : (line == p) = false := by simp [hlp]
      rw [h2]
      cases hres : kmpLoop p line (compute_lps p) p.length line.length
        (2 * line.length + 1) 0 0
      · rfl
      · exact absurd
          (kmpLoop_sound p line (compute_lps p) (compute_lps_sound p) hmn.symm
            (2 * line.length + 1) 0 0 (Nat.le_refl 0) (Nat.zero_le _) hp0
            (takeSuffix_zero p line 0) hres) hlp
  · have hne : (p.length != line.length) = true := by simp [hmn]
    simp only [hne, if_true]
    have h2 : (line == p) = false := by
      rw [beq_eq_false_iff_ne]
      intro h
      exact hmn (congrArg List.length h).symm
    rw [h2]

lemma kmp_eq_native (t p : List Char) (hp : p ≠ []) :
    kmp_search t p = native_search t p := by
  unfold kmp_search native_search
  apply any_congr
  intro line _
  exact kmp_search_line_eq p line hp

lemma find?_cons_pos {α : Type} (f : α → Bool) (a : α) (l : List α)
    (h : f a = true) : (a :: l).find? f = some a := by
  simp [List.find?_cons, h]

lemma find?_cons_neg {α : Type} (f : α → Bool) (a : α) (l : List α)
    (h : f a = false) : (a :: l).find? f = l.find? f := by
  simp [List.find?_cons, h]

lemma find?_map_key_update {α β : Type} [BEq α] [LawfulBEq α]
    (d : List (α × β)) (k k' : α) (v : β) (h : (k == k') = false) :
    (d.map (fun e => if e.1 == k then (k, v) else e)).find?
      (fun e => e.1 == k') = d.find? (fun e => e.1 == k') := by
  induction d with
  | nil => rfl
  | cons e rest ih =>
    by_cases he : (e.1 == k) = true
    · have he1 : e.1 = k := eq_of_beq he
      have hp2 : (e.1 == k') = false := by rw [he1]; exact h
      simp only [List.map_cons, if_pos he]
      rw [find?_cons_neg (fun e => e.1 == k') ((k, v) : α × β) _ h,
        find?_cons_neg (fun e => e.1 == k') e _ hp2, ih]
    · simp only [List.map_cons, if_neg he]
      by_cases hp : (e.1 == k') = true
      · rw [find?_cons_pos (fun e => e.1 == k') e _ hp,
          find?_cons_pos (fun e => e.1 == k') e _ hp]
      · rw [find?_cons_neg (fun e => e.1 == k') e _ (by simpa using hp),
          find?_cons_neg (fun e => e.1 == k') e _ (by simpa using hp), ih]

lemma dlookup_dinsert_self {α β : Type} [BEq α] [LawfulBEq α]
    (d : List (α × β)) (k : α) (v : β) :
    dlookup (dinsert d k v) k = some v := by
  unfold dinsert
  by_cases hs : (d.find? (fun e => e.1 == k)).isSome = true
  · rw [if_pos hs]
    unfold dlookup
    induction d with
    | nil => simp at hs
    | cons e rest ih =>
      by_cases he : (e.1 == k) = true
      · simp only [List.map_cons, if_pos he]
        rw [find?_cons_pos (fun e => e.1 == k) ((k, v) : α × β) _ (by simp)]
        rfl
      · simp only [List.map_cons, if_neg he]
        rw [find?_cons_neg (fun e => e.1 == k) e _ (by simpa using he)]
        apply ih
        rw [find?_cons_neg (fun e => e.1 == k) e _ (by simpa using he)] at hs
        exact hs
  · rw [if_neg hs]
    unfold dlookup
    rw [List.find?_append]
    have hnone : d.find? (fun e => e.1 == k) = none := by
      cases hfind : d.find? (fun e => e.1 == k)
      · rfl
      · rw [hfind] at hs; simp at hs
    rw [hnone, find?_cons_pos (fun e => e.1 == k) ((k, v) : α × β) _ (by simp)]
    rfl

lemma dlookup_dinsert_ne {α β : Type} [BEq α] [LawfulBEq α]
    (d : List (α × β)) (k k' : α) (v : β) (h : k' ≠ k) :
    dlookup (dinsert d k v) k' = dlookup d k' := by
  have hkk : (k == k') = false := by
    rw [beq_eq_false_iff_ne]
    exact fun he => h he.symm
  unfold dinsert
  by_cases hs : (d.find? (fun e => e.1 == k)).isSome = true
  · rw [if_pos hs]
    unfold dlookup
    rw [find?_map_key_update d k k' v hkk]
  · rw [if_neg hs]
    unfold dlookup
    rw [List.find?_append]
    cases hfind : d.find? (fun e => e.1 == k')
    · rw [find?_cons_neg (fun e => e.1 == k') ((k, v) : α × β) _ hkk]
      rfl
    · rfl

lemma getD_append_left {α : Type} (l r : List α) (k : Nat) (d : α)
    (h : k < l.length) : (l ++ r).getD k d = l.getD k d := by
  simp [List.getD_eq_getElem?_getD, List.getElem?_append, h]

lemma getD_append_start {α : Type} (l r : List α) (d : α) :
    (l ++ r).getD l.length d = r.getD 0 d := by
  simp [List.getD_eq_getElem?_getD,
    List.getElem?_append_right (Nat.le_refl l.length)]

/-- The goto dict that `add_pattern` builds for a single pattern on the empty
automaton: a chain `0 → 1 → ⋯ → m` reading the pattern's characters. -/
def chainGoto (p : List Char) : List ((Nat × Char) × Nat) :=
  (List.range p.length).map (fun k => ((k, p.getD k 'A'), k + 1))

lemma mem_chainGoto {p : List Char} {e : (Nat × Char) × Nat} :
    e ∈ chainGoto p ↔ ∃ k, k < p.length ∧ e = ((k, p.getD k 'A'), k + 1) := by
  unfold chainGoto
  simp only [List.mem_map, List.mem_range]
  constructor
  · rintro ⟨k, hk, rfl⟩
    exact ⟨k, hk, rfl⟩
  · rintro ⟨k, hk, rfl⟩
    exact ⟨k, hk, rfl⟩

lemma dlookup_chain_none (p : List Char) (i : Nat) (c : Char)
    (h : ¬(i < p.length ∧ p.getD i 'A' = c)) :
    dlookup (chainGoto p) (i, c) = none := by
  unfold dlookup
  rw [List.find?_eq_none.mpr]
  · rfl
  · intro e he hpred
    obtain ⟨k, hk, rfl⟩ := mem_chainGoto.mp he
    have : ((k, p.getD k 'A') : Nat × Char) = (i, c) := by
      exact eq_of_beq hpred
    have hki : k = i := congrArg Prod.fst this
    have hcc : p.getD k 'A' = c := congrArg Prod.snd this
    exact h ⟨hki ▸ hk, hki ▸ hcc⟩

lemma dlookup_chain_some (p : List Char) (i : Nat) (c : Char)
    (hi : i < p.length) (hc : p.getD i 'A' = c) :
    dlookup (chainGoto p) (i, c) = some (i + 1) := by
  unfold dlookup
  cases hfind : (chainGoto p).find? (fun e => e.1 == (i, c)) with
  | none =>
    exfalso
    have hmem : ((i, c), i + 1) ∈ chainGoto p := by
      rw [mem_chainGoto]
      exact ⟨i, hi, by rw [hc]⟩
    exact absurd (List.find?_eq_none.mp hfind _ hmem) (by simp)
  | some e =>
    have hpred := List.find?_some hfind
    have hmem := List.mem_of_find?_eq_some hfind
    obtain ⟨k, hk, rfl⟩ := mem_chainGoto.mp hmem
    have heq : ((k, p.getD k 'A') : Nat × Char) = (i, c) := eq_of_beq hpred
    have hki : k = i := congrArg Prod.fst heq
    subst hki
    rfl

lemma dlookup_chain_inv {p : List Char} {i : Nat} {c : Char} {s : Nat}
    (h : dlookup (chainGoto p) (i, c) = some s) :
    i < p.length ∧ p.getD i 'A' = c ∧ s = i + 1 := by
  unfold dlookup at h
  cases hfind : (chainGoto p).find? (fun e => e.1 == (i, c)) with
  | none => rw [hfind] at h; simp at h
  | some e =>
    rw [hfind] at h
    have hpred := List.find?_some hfind
    have hmem := List.mem_of_find?_eq_some hfind
    obtain ⟨k, hk, rfl⟩ := mem_chainGoto.mp hmem
    have heq : ((k, p.getD k 'A') : Nat × Char) = (i, c) := eq_of_beq hpred
    have hki : k = i := congrArg Prod.fst heq
    subst hki
    have hcc : p.getD k 'A' = c := congrArg Prod.snd heq
    have hs : s = k + 1 := by
      simp at h
      omega
    exact ⟨hk, hcc, hs⟩

lemma chainGoto_snoc (q : List Char) (c : Char) :
    chainGoto (q ++ [c]) =
      chainGoto q ++ [((q.length, c), q.length + 1)] := by
  unfold chainGoto
  rw [List.length_append, List.length_cons, List.length_nil, List.range_succ,
    List.map_append]
  congr 1
  · apply List.map_congr_left
    intro k hk
    rw [List.mem_range] at hk
    rw [getD_append_left _ _ _ _ hk]
  · simp [getD_append_start]

lemma dinsert_chain_snoc (q : List Char) (c : Char) :
    dinsert (chainGoto q) (q.length, c) (q.length + 1) =
      chainGoto (q ++ [c]) := by
  unfold dinsert
  have hnone : (chainGoto q).find? (fun e => e.1 == (q.length, c)) = none := by
    have h := dlookup_chain_none q q.length c (fun hcon => by omega)
    unfold dlookup at h
    cases hfind : (chainGoto q).find? (fun e => e.1 == (q.length, c))
    · rfl
    · rw [hfind] at h; simp at h
  rw [if_neg (by rw [hnone]; simp)]
  exact (chainGoto_snoc q c).symm

lemma addPatternLoop_chain (o : List (Nat × List Char))
    (f : List (Nat × Nat)) :
    ∀ (rest q : List Char),
      addPatternLoop ⟨chainGoto q, o, f, q.length⟩ q.length rest =
        (⟨chainGoto (q ++ rest), o, f, (q ++ rest).length⟩,
          (q ++ rest).length) := by
  intro rest
  induction rest with
  | nil =>
    intro q
    simp [addPatternLoop]
  | cons c rest ih =>
    intro q
    have hnone : dlookup (chainGoto q) (q.length, c) = none :=
      dlookup_chain_none q q.length c (fun hcon => by omega)
    simp only [addPatternLoop, hnone]
    rw [dinsert_chain_snoc q c]
    have hlen : q.length + 1 = (q ++ [c]).length := by simp
    have happ : (q ++ [c]) ++ rest = q ++ (c :: rest) := by simp
    have ihq := ih (q ++ [c])
    rw [happ] at ihq
    rw [← ihq]
    congr 1
    simp

lemma add_pattern_empty (p : List Char) :
    AhoCorasick.empty.add_pattern p =
      ⟨chainGoto p, [(p.length, p)], [], p.length⟩ := by
  unfold AhoCorasick.add_pattern AhoCorasick.empty
  have h0 : (⟨[], [], [], 0⟩ : AhoCorasick) =
      ⟨chainGoto [], [], [], ([] : List Char).length⟩ := rfl
  rw [h0]
  have h := addPatternLoop_chain [] [] p []
  rw [show (0 : Nat) = ([] : List Char).length from rfl]
  rw [h]
  have hins : dinsert ([] : List (Nat × List Char)) p.length p =
      [(p.length, p)] := by
    unfold dinsert
    simp
  simp only [List.nil_append]
  rw [hins]

lemma filter_range_beq (m r : Nat) :
    (List.range m).filter (fun k => k == r) =
      if r < m then [r] else [] := by
  induction m with
  | zero => simp
  | succ m ih =>
    rw [List.range_succ, List.filter_append, ih]
    by_cases hrm : r < m
    · rw [if_pos hrm, if_pos (by omega)]
      have hne : (m == r) = false := by simp; omega
      simp [hne]
    · by_cases hrm2 : r = m
      · subst hrm2
        rw [if_neg hrm, if_pos (by omega)]
        simp
      · rw [if_neg hrm, if_neg (by omega)]
        have hne : (m == r) = false := by simp; omega
        simp [hne]

lemma childKeys_chain (p : List Char) (r : Nat) :
    childKeys (chainGoto p) r =
      if r < p.length then [p.getD r 'A'] else [] := by
  unfold childKeys chainGoto
  rw [List.filter_map]
  have hcomp : ((fun e : (Nat × Char) × Nat => e.1.1 == r) ∘
      fun k => ((k, p.getD k 'A'), k + 1)) = fun k => k == r := rfl
  rw [hcomp, filter_range_beq]
  by_cases hrm : r < p.length
  · rw [if_pos hrm, if_pos hrm]
    simp
  · rw [if_neg hrm, if_neg hrm]
    simp

/-- Soundness of the fail links of the single-pattern automaton for states
`1..t`: each link exists, decreases, and names a true prefix-suffix length. -/
def FailSound (p : List Char) (fail : List (Nat × Nat)) (t : Nat) : Prop :=
  ∀ s, 1 ≤ s → s ≤ t →
    ∃ fs, dlookup fail s = some fs ∧ fs < s ∧ TakeSuffix p p s fs

lemma failWalk_spec (goto : List ((Nat × Char) × Nat))
    (fail : List (Nat × Nat)) (key : Char) (Q : Nat → Prop)
    (hstep : ∀ st, st ≠ 0 → Q st → (dlookup goto (st, key)).isNone = true →
      Q ((dlookup fail st).getD 0) ∧ (dlookup fail st).getD 0 < st) :
    ∀ fuel st, Q st → st + 1 ≤ fuel →
      Q (failWalk goto fail key fuel st) ∧
        ((dlookup goto (failWalk goto fail key fuel st, key)).isSome = true ∨
          failWalk goto fail key fuel st = 0) := by
  intro fuel
  induction fuel with
  | zero =>
    intro st _ h
    omega
  | succ fuel ih =>
    intro st hQ hf
    by_cases hcond : ((dlookup goto (st, key)).isNone && st != 0) = true
    · have h1 : (dlookup goto (st, key)).isNone = true :=
        (Bool.and_eq_true _ _).mp hcond |>.1
      have h2 : st ≠ 0 := by
        have := (Bool.and_eq_true _ _).mp hcond |>.2
        simpa using this
      have hw : failWalk goto fail key (fuel + 1) st =
          failWalk goto fail key fuel ((dlookup fail st).getD 0) := by
        simp only [failWalk, hcond, if_true]
      rw [hw]
      obtain ⟨hQ2, hlt⟩ := hstep st h2 hQ h1
      exact ih _ hQ2 (by omega)
    · have hw : failWalk goto fail key (fuel + 1) st = st := by
        simp only [failWalk]
        rw [if_neg hcond]
      rw [hw]
      refine ⟨hQ, ?_⟩
      by_cases h0 : st = 0
      · exact Or.inr h0
      · left
        cases ho : dlookup goto (st, key) with
        | none =>
          exfalso
          apply hcond
          rw [ho]
          simp [h0]
        | some v => simp [ho]

lemma buildLoop_nil (fuel : Nat) (a : AhoCorasick) : buildLoop fuel a [] = a := by
  cases fuel <;> rfl

lemma dlookup_single_ne {m : Nat} {p : List Char} {s : Nat} (h : s ≠ m) :
    dlookup [(m, p)] s = none := by
  unfold dlookup
  rw [find?_cons_neg (fun e => e.1 == s) ((m, p) : Nat × List Char) _
    (by rw [beq_eq_false_iff_ne]; exact fun he => h he.symm)]
  rfl

lemma dlookup_single_self (m : Nat) (p : List Char) :
    dlookup [(m, p)] m = some p := by
  unfold dlookup
  rw [find?_cons_pos (fun e => e.1 == m) ((m, p) : Nat × List Char) _ (by simp)]
  rfl

lemma buildStep_chain (p : List Char) (F : List (Nat × Nat)) (r : Nat)
    (hr1 : 1 ≤ r) (hrlt : r < p.length) (hfs : FailSound p F r) :
    ∃ fs, buildStep ⟨chainGoto p, [(p.length, p)], F, p.length⟩ r =
        (⟨chainGoto p, [(p.length, p)], dinsert F (r + 1) fs, p.length⟩,
          [r + 1]) ∧
      fs < r + 1 ∧ TakeSuffix p p (r + 1) fs := by
  obtain ⟨fr, hlookr, hfrlt, hfrts⟩ := hfs r hr1 (Nat.le_refl r)
  have hwalk := failWalk_spec (chainGoto p) F (p.getD r 'A')
    (fun st => st < r ∧ TakeSuffix p p r st)
    (by
      intro st hst0 hQ hnone
      obtain ⟨g, hg, hglt, hgts⟩ := hfs st (by omega) (by omega)
      rw [hg]
      simp only [Option.getD_some]
      exact ⟨⟨by omega,
        takeSuffix_trans hQ.2 hgts (by omega) (by omega)⟩, hglt⟩)
    (p.length + 1) fr ⟨hfrlt, hfrts⟩ (by omega)
  obtain ⟨⟨hstlt, hstts⟩, hexit⟩ := hwalk
  cases hlook2 : dlookup (chainGoto p)
      (failWalk (chainGoto p) F (p.getD r 'A') (p.length + 1) fr,
        p.getD r 'A') with
  | some t2 =>
    obtain ⟨hstm, hstc, ht2⟩ := dlookup_chain_inv hlook2
    refine ⟨t2, ?_, by omega, ?_⟩
    · simp only [buildStep, childKeys_chain, if_pos hrlt, List.foldl_cons,
        List.foldl_nil]
      rw [dlookup_chain_some p r (p.getD r 'A') hrlt rfl]
      simp only [Option.getD_some]
      rw [hlookr]
      simp only [Option.getD_some]
      rw [hlook2]
      have houtnone : dlookup [(p.length, p)] t2 = none :=
        dlookup_single_ne (by omega)
      rw [houtnone]
      simp
    · rw [ht2]
      exact takeSuffix_extend 'A' hstts hstm hrlt (by omega) hstc
  | none =>
    have hst0 : failWalk (chainGoto p) F (p.getD r 'A') (p.length + 1) fr =
        0 := by
      rcases hexit with h | h
      · rw [hlook2] at h
        simp at h
      · exact h
    refine ⟨0, ?_, by omega, takeSuffix_zero p p (r + 1)⟩
    simp only [buildStep, childKeys_chain, if_pos hrlt, List.foldl_cons,
      List.foldl_nil]
    rw [dlookup_chain_some p r (p.getD r 'A') hrlt rfl]
    simp only [Option.getD_some]
    rw [hlookr]
    simp only [Option.getD_some]
    rw [hlook2]
    have houtnone : dlookup [(p.length, p)] 0 = none :=
      dlookup_single_ne (by omega)
    rw [houtnone]
    simp

lemma buildLoop_chain (p : List Char) :
    ∀ fuel r F,
      1 ≤ r → r ≤ p.length → FailSound p F r →
      p.length - r + 1 ≤ fuel →
      ∃ F2,
        buildLoop fuel ⟨chainGoto p, [(p.length, p)], F, p.length⟩ [r] =
          ⟨chainGoto p, [(p.length, p)], F2, p.length⟩ ∧
        FailSound p F2 p.length := by
  intro fuel
  induction fuel with
  | zero =>
    intro r F _ _ _ h
    omega
  | succ fuel ih =>
    intro r F hr1 hrm hfs hf
    by_cases hrlt : r < p.length
    · obtain ⟨fs, hbs, hfslt, hfsts⟩ := buildStep_chain p F r hr1 hrlt hfs
      have hstep : buildLoop (fuel + 1)
          ⟨chainGoto p, [(p.length, p)], F, p.length⟩ [r] =
          buildLoop fuel
            ⟨chainGoto p, [(p.length, p)], dinsert F (r + 1) fs, p.length⟩
            [r + 1] := by
        simp only [buildLoop, hbs]
        rfl
      rw [hstep]
      apply ih (r + 1) (dinsert F (r + 1) fs) (by omega) (by omega)
      · intro s hs1 hs2
        by_cases hsr : s = r + 1
        · subst hsr
          exact ⟨fs, dlookup_dinsert_self F (r + 1) fs, hfslt, hfsts⟩
        · obtain ⟨g, hg, hglt, hgts⟩ := hfs s hs1 (by omega)
          exact ⟨g, by rw [dlookup_dinsert_ne F (r + 1) s fs hsr]; exact hg,
            hglt, hgts⟩
      · omega
    · have hrm2 : r = p.length := by omega
      subst hrm2
      have hbs : buildStep ⟨chainGoto p, [(p.length, p)], F, p.length⟩
          p.length = (⟨chainGoto p, [(p.length, p)], F, p.length⟩, []) := by
        simp only [buildStep, childKeys_chain]
        rw [if_neg (by omega)]
        rfl
      have hstep : buildLoop (fuel + 1)
          ⟨chainGoto p, [(p.length, p)], F, p.length⟩ [p.length] =
          ⟨chainGoto p, [(p.length, p)], F, p.length⟩ := by
        simp only [buildLoop, hbs]
        exact buildLoop_nil fuel _
      rw [hstep]
      exact ⟨F, rfl, hfs⟩

lemma build_automaton_chain (p : List Char) (hp : p ≠ []) :
    ∃ F2,
      (AhoCorasick.empty.add_pattern p).build_automaton =
        ⟨chainGoto p, [(p.length, p)], F2, p.length⟩ ∧
      FailSound p F2 p.length := by
  have hm : 0 < p.length := List.length_pos.mpr hp
  rw [add_pattern_empty]
  unfold AhoCorasick.build_automaton
  simp only [childKeys_chain, if_pos hm, List.map_cons, List.map_nil]
  rw [dlookup_chain_some p 0 (p.getD 0 'A') hm rfl]
  simp only [Option.getD_some, List.foldl_cons, List.foldl_nil]
  apply buildLoop_chain p (p.length + 1) 1 (dinsert [] 1 0) (Nat.le_refl 1) hm
  · intro s hs1 hs2
    have hs : s = 1 := by omega
    subst hs
    exact ⟨0, dlookup_dinsert_self [] 1 0, by omega, takeSuffix_zero p p 1⟩
  · omega

lemma getD_of_drop_cons {α : Type} {l : List α} {i : Nat} {a : α}
    {rest : List α} (d : α) (h : l.drop i = a :: rest) : l.getD i d = a := by
  have h1 : l[i]? = some a := by
    have h2 := List.getElem?_drop l i 0
    rw [h] at h2
    simpa using h2.symm
  simp [List.getD_eq_getElem?_getD, h1]

lemma drop_succ_of_drop_cons {α : Type} {l : List α} {i : Nat} {a : α}
    {rest : List α} (h : l.drop i = a :: rest) : l.drop (i + 1) = rest := by
  have h2 : (l.drop i).drop 1 = l.drop (i + 1) := drop_add l i 1
  rw [← h2, h]
  rfl

lemma lt_length_of_drop_cons {α : Type} {l : List α} {i : Nat} {a : α}
    {rest : List α} (h : l.drop i = a :: rest) : i < l.length := by
  by_contra hge
  rw [List.drop_eq_nil_of_le (by omega)] at h
  simp at h

lemma drop_eq_getD_cons {α : Type} (l : List α) (i : Nat) (d : α)
    (h : i < l.length) : l.drop i = l.getD i d :: l.drop (i + 1) := by
  rw [List.drop_eq_getElem_cons h]
  congr 1
  simp [List.getD_eq_getElem?_getD, List.getElem?_eq_getElem h]

lemma failWalk_found (goto : List ((Nat × Char) × Nat))
    (fail : List (Nat × Nat)) (key : Char) (fuel st : Nat)
    (h : (dlookup goto (st, key)).isNone = false) :
    failWalk goto fail key (fuel + 1) st = st := by
  simp only [failWalk]
  rw [if_neg (by simp [h])]

lemma searchLoop_sound (p line : List Char) (F : List (Nat × Nat))
    (hF : FailSound p F p.length) :
    ∀ (cs : List Char) (st : Nat) (res : List (Int × List Char)) (idx : Nat),
      line.drop idx = cs →
      st ≤ idx → st ≤ p.length → TakeSuffix p line idx st →
      (searchLoop ⟨chainGoto p, [(p.length, p)], F, p.length⟩ st res idx
        cs).any (fun e => e.2 == p) = true →
      res.any (fun e => e.2 == p) = true ∨
        ∃ t, t ≤ line.length ∧ TakeSuffix p line t p.length := by
  intro cs
  induction cs with
  | nil =>
    intro st res idx _ _ _ _ hres
    exact Or.inl hres
  | cons c cs ih =>
    intro st res idx hdrop hsti hstm hts hres
    have hidxlt : idx < line.length := lt_length_of_drop_cons hdrop
    have hchar : line.getD idx 'A' = c := getD_of_drop_cons 'A' hdrop
    have hdrop2 : line.drop (idx + 1) = cs := drop_succ_of_drop_cons hdrop
    have hwalk := failWalk_spec (chainGoto p) F c
      (fun s => s ≤ idx ∧ s ≤ p.length ∧ TakeSuffix p line idx s)
      (by
        intro s hs0 hQ hnone
        obtain ⟨g, hg, hglt, hgts⟩ := hF s (by omega) hQ.2.1
        rw [hg]
        simp only [Option.getD_some]
        exact ⟨⟨by omega, by omega,
          takeSuffix_trans hQ.2.2 hgts hQ.1 (by omega)⟩, hglt⟩)
      (p.length + 1) st ⟨hsti, hstm, hts⟩ (by omega)
    obtain ⟨⟨hw1, hw2, hw3⟩, hexit⟩ := hwalk
    cases hlook : dlookup (chainGoto p)
        (failWalk (chainGoto p) F c (p.length + 1) st, c) with
    | some s2 =>
      obtain ⟨hlt, hceq, hs2⟩ := dlookup_chain_inv hlook
      have hext : TakeSuffix p line (idx + 1)
          (failWalk (chainGoto p) F c (p.length + 1) st + 1) :=
        takeSuffix_extend 'A' hw3 hlt hidxlt hw1 (by rw [hceq, hchar])
      by_cases hs2m : s2 = p.length
      · right
        refine ⟨idx + 1, by omega, ?_⟩
        have hm : failWalk (chainGoto p) F c (p.length + 1) st + 1 =
            p.length := by omega
        rw [← hm]
        exact hext
      · have hstep : searchLoop ⟨chainGoto p, [(p.length, p)], F, p.length⟩
            st res idx (c :: cs) =
            searchLoop ⟨chainGoto p, [(p.length, p)], F, p.length⟩ s2 res
              (idx + 1) cs := by
          simp only [searchLoop, hlook]
          rw [dlookup_single_ne hs2m]
        rw [hstep] at hres
        exact ih s2 res (idx + 1) hdrop2 (by omega) (by omega)
          (by rw [hs2]; exact hext) hres
    | none =>
      have hst0 : failWalk (chainGoto p) F c (p.length + 1) st = 0 := by
        rcases hexit with h | h
        · rw [hlook] at h
          simp at h
        · exact h
      have hstep : searchLoop ⟨chainGoto p, [(p.length, p)], F, p.length⟩
          st res idx (c :: cs) =
          searchLoop ⟨chainGoto p, [(p.length, p)], F, p.length⟩ 0 res
            (idx + 1) cs := by
        simp only [searchLoop, hlook]
      rw [hstep] at hres
      exact ih 0 res (idx + 1) hdrop2 (by omega) (by omega)
        (takeSuffix_zero p line (idx + 1)) hres

lemma searchLoop_complete (p : List Char) (F : List (Nat × Nat)) :
    ∀ fuel k res, k < p.length → p.length - k ≤ fuel →
      (searchLoop ⟨chainGoto p, [(p.length, p)], F, p.length⟩ k res k
        (p.drop k)).any (fun e => e.2 == p) = true := by
  intro fuel
  induction fuel with
  | zero =>
    intro k res hk hf
    omega
  | succ fuel ih =>
    intro k res hk hf
    have hdrop : p.drop k = p.getD k 'A' :: p.drop (k + 1) :=
      drop_eq_getD_cons p k 'A' hk
    have hlookk : dlookup (chainGoto p) (k, p.getD k 'A') = some (k + 1) :=
      dlookup_chain_some p k _ hk rfl
    have hwalk : failWalk (chainGoto p) F (p.getD k 'A') (p.length + 1) k =
        k := failWalk_found _ _ _ p.length k (by rw [hlookk]; rfl)
    rw [hdrop]
    by_cases hk1 : k + 1 = p.length
    · have hout : dlookup [(p.length, p)] (k + 1) = some p := by
        rw [hk1]
        exact dlookup_single_self p.length p
      have hnil : p.drop (k + 1) = [] := by
        rw [hk1]
        exact List.drop_length p
      simp only [searchLoop, hwalk, hlookk, hout, hnil]
      simp [List.any_append]
    · have hout : dlookup [(p.length, p)] (k + 1) = none :=
        dlookup_single_ne hk1
      simp only [searchLoop, hwalk, hlookk, hout]
      exact ih (k + 1) res (by omega) (by omega)

lemma aho_eq_native (t p : List Char) (hp : p ≠ []) :
    aho_corasick_search t p = native_search t p := by
  have hm : 0 < p.length := List.length_pos.mpr hp
  obtain ⟨F, hbuild, hF⟩ := build_automaton_chain p hp
  simp only [aho_corasick_search, native_search, hbuild]
  apply any_congr
  intro line _
  by_cases hlp : line = p
  · subst hlp
    have h1 : (line == line) = true := by simp
    have h2 : (line.length == line.length) = true := by simp
    rw [h1, h2]
    simp only [Bool.true_and]
    unfold AhoCorasick.search
    have hc := searchLoop_complete line F (line.length + 1) 0 [] hm (by omega)
    rwa [List.drop_zero] at hc
  · have h2 : (line == p) = false := by simp [hlp]
    rw [h2]
    by_cases hlen : line.length = p.length
    · have h3 : (line.length == p.length) = true := by simp [hlen]
      rw [h3]
      simp only [Bool.true_and]
      cases hres : (AhoCorasick.search
          ⟨chainGoto p, [(p.length, p)], F, p.length⟩ line).any
          (fun e => e.2 == p)
      · rfl
      · exfalso
        unfold AhoCorasick.search at hres
        rcases searchLoop_sound p line F hF line 0 [] 0
            (List.drop_zero line) (Nat.le_refl 0) (by omega)
            (takeSuffix_zero p line 0) hres with h | ⟨tt, htt, hts⟩
        · simp at h
        · exact hlp (takeSuffix_full hts htt hlen).2
    · have h3 : (line.length == p.length) = false := by simp [hlen]
      rw [h3]
      simp

/-- Claim C1, counterexample to the claim as stated: on the empty corpus and
empty query, `native_search` returns true while `rabin_karp_search` returns
false; and on corpus and query both `"x\ny"`, `native_search` returns false
while `regex_search` returns true (the MULTILINE anchors let a multi-line
query match a block of whole lines). So the five implementations do not agree
on all inputs. -/
theorem claim1_counterexample :
    native_search [] [] ≠ rabin_karp_search [] [] ∧
    native_search ['x', '\n', 'y'] ['x', '\n', 'y'] ≠
      regex_search ['x', '\n', 'y'] ['x', '\n', 'y'] := by
  decide

/-- Claim C1 (amended): for every corpus text and every query that is
non-empty and contains no newline character, the five search implementations
`native_search`, `regex_search`, `rabin_karp_search`, `kmp_search` and
`aho_corasick_search` all return the same boolean. -/
theorem claim1_all_five_agree (text pattern : List Char)
    (h1 : pattern ≠ []) (h2 : '\n' ∉ pattern) :
    regex_search text pattern = native_search text pattern ∧
    rabin_karp_search text pattern = native_search text pattern ∧
    kmp_search text pattern = native_search text pattern ∧
    aho_corasick_search text pattern = native_search text pattern :=
  ⟨regex_eq_native text pattern h2, rabin_karp_eq_native text pattern h1,
    kmp_eq_native text pattern h1, aho_eq_native text pattern h1⟩

/-- Witness for C1's theorem at corpus `"ab\ncd"` and query `"cd"`. -/
theorem claim1_all_five_agree_witness :
    ((['c', 'd'] : List Char) ≠ [] ∧ '\n' ∉ (['c', 'd'] : List Char)) ∧
    (regex_search ['a', 'b', '\n', 'c', 'd'] ['c', 'd'] =
        native_search ['a', 'b', '\n', 'c', 'd'] ['c', 'd'] ∧
      rabin_karp_search ['a', 'b', '\n', 'c', 'd'] ['c', 'd'] =
        native_search ['a', 'b', '\n', 'c', 'd'] ['c', 'd'] ∧
      kmp_search ['a', 'b', '\n', 'c', 'd'] ['c', 'd'] =
        native_search ['a', 'b', '\n', 'c', 'd'] ['c', 'd'] ∧
      aho_corasick_search ['a', 'b', '\n', 'c', 'd'] ['c', 'd'] =
        native_search ['a', 'b', '\n', 'c', 'd'] ['c', 'd']) :=
  ⟨⟨by decide, by decide⟩,
    claim1_all_five_agree ['a', 'b', '\n', 'c', 'd'] ['c', 'd'] (by decide)
      (by decide)⟩

/-- Claim C10: for every text and every pattern with no newline character,
`regex_search` returns the same boolean as `native_search`: the escaped,
anchored MULTILINE regex decides exactly membership of the pattern among the
lines of the text. -/
theorem claim10_regex_refines_native (text pattern : List Char)
    (h : '\n' ∉ pattern) :
    regex_search text pattern = native_search text pattern :=
  regex_eq_native text pattern h

/-- Witness for C10's theorem at text `"hi\nyo"` and pattern `"yo"`. -/
theorem claim10_regex_refines_native_witness :
    ('\n' ∉ (['y', 'o'] : List Char)) ∧
    regex_search ['h', 'i', '\n', 'y', 'o'] ['y', 'o'] =
      native_search ['h', 'i', '\n', 'y', 'o'] ['y', 'o'] :=
  ⟨by decide,
    claim10_regex_refines_native ['h', 'i', '\n', 'y', 'o'] ['y', 'o']
      (by decide)⟩

/-- Claim C2: evaluation of `Server.search` at the failing input: for corpus
`"alpha\nbeta\ngamma"` and the newline-containing query `"alpha\nbeta"`, the
server answers `STRING EXISTS`, not `STRING NOT FOUND` as both the spec and
`regex_search`'s own docstring promise: under `re.MULTILINE` the anchors `^`
and `$` also match at inner line boundaries, so a multi-line query matching a
block of consecutive whole lines is reported found. -/
theorem claim2_newline_query_code_result :
    serverSearch ("alpha" ++ "\n" ++ "beta" ++ "\n" ++ "gamma").toList
        ("alpha" ++ "\n" ++ "beta").toList = "STRING EXISTS" ∧
    native_search ("alpha" ++ "\n" ++ "beta" ++ "\n" ++ "gamma").toList
        ("alpha" ++ "\n" ++ "beta").toList = false := by
  constructor
  · rfl
  · rfl

/-- Claim C5, counterexample to the claim as stated: on the empty corpus and
empty query the server does not answer `STRING NOT FOUND`. -/
theorem claim5_counterexample :
    serverSearch [] [] ≠ "STRING NOT FOUND" := by
  decide

/-- Claim C5 (amended): when the corpus snapshot is the empty string and the
query is the empty string, `Server.search` returns `STRING EXISTS`: splitting
the empty string on newlines yields one empty line, which the empty query
matches (`regex_search`'s `^$` matches the empty string, agreeing with
`native_search`). -/
theorem claim5_empty_corpus_empty_query :
    serverSearch [] [] = "STRING EXISTS" ∧ native_search [] [] = true := by
  decide

/-- Claim C3: evaluation of the boolean-field conversion of
`Config.__init__` at the failing inputs. The conversion branch is dead
(`f.type == "bool"` compares the class `bool` with a string, which is always
false), so a string value is stored unchanged; and even the intended tuple is
`("yes", "true", "on1")` because of implicit string concatenation, so `"on"`
and `"1"` would map to false. -/
theorem claim3_bool_conversion_dead :
    configBoolField (PyValue.str "on") = PyValue.str "on" ∧
    configBoolField (PyValue.str "yes") = PyValue.str "yes" ∧
    configBoolField (PyValue.str "no") = PyValue.str "no" ∧
    strToBool "on" = false ∧ strToBool "1" = false ∧
    strToBool "yes" = true ∧ strToBool "on1" = true := by
  decide

/-- Claim C4, counterexample to the claim as stated: on the invalid UTF-8
payload `[0xFF]`, the worker does not respond `STRING NOT FOUND`; it sends
nothing at all. -/
theorem claim4_counterexample :
    utf8Decode (rstripNul [255]) = none ∧
    (handle_client ("beta".toList) [255]).sent ≠ ["STRING NOT FOUND"] := by
  decide

/-- Claim C4 (amended): for every connection whose received payload is not
valid UTF-8 after stripping trailing NUL bytes, the per-connection worker
sends no response at all and logs the error: the `UnicodeDecodeError` jumps
to the generic exception handler of `_handle_client`, which only logs. -/
theorem claim4_decode_failure_no_response (database : List Char)
    (payload : List Nat) (h : utf8Decode (rstripNul payload) = none) :
    handle_client database payload = ⟨[], true⟩ := by
  unfold handle_client
  rw [h]

/-- Witness for C4's theorem at corpus `"beta"` and payload `[0xFF]`. -/
theorem claim4_decode_failure_witness :
    utf8Decode (rstripNul [255]) = none ∧
    handle_client ("beta".toList) [255] = ⟨[], true⟩ :=
  ⟨by decide, claim4_decode_failure_no_response ("beta".toList) [255]
    (by decide)⟩

/-- Claim C6, counterexample to the claim as stated: when `bind` raises
`OSError`, `Server.connect` does not exit with a non-zero status. -/
theorem claim6_counterexample :
    ¬ ∃ c, c ≠ 0 ∧
      connectOutcome BindResult.oserror = ConnectOutcome.exited c := by
  rintro ⟨c, hc, h⟩
  simp [connectOutcome] at h
  exact hc h.symm

/-- Claim C6 (amended): if binding the listening socket fails with an
OS-level error, the process exits with status zero: the `except OSError`
clause of `Server.connect` calls `sys.exit(0)`. -/
theorem claim6_bind_error_exits_zero :
    connectOutcome BindResult.oserror = ConnectOutcome.exited 0 := rfl

/-- Claim C7, counterexample to the claim as stated: when the configured
certfile exists but the keyfile does not (at least one of the two missing),
no certificate is generated; the configured paths are kept as-is. -/
theorem claim7_counterexample :
    (load_ssl_certs ["server.crt"] "server.crt" "server.key").generated =
      false ∧
    (load_ssl_certs ["server.crt"] "server.crt" "server.key").certfile =
      "server.crt" ∧
    (load_ssl_certs ["server.crt"] "server.crt" "server.key").certfile ≠
      "./.certs/server.crt" := by
  decide

/-- Claim C7 (amended): a self-signed pair is generated into the certificate
directory only when NEITHER the configured certfile nor the configured
keyfile exists; when at least one of the two exists, the configured paths are
used as-is; and `generate_certs` returns an existing generated pair unchanged
instead of overwriting it. -/
theorem claim7_cert_selection (fs : List String) (certfile keyfile : String) :
    (pathExists fs certfile = false ∧ pathExists fs keyfile = false →
      load_ssl_certs fs certfile keyfile = generate_certs fs "./.certs") ∧
    (pathExists fs certfile = true ∨ pathExists fs keyfile = true →
      load_ssl_certs fs certfile keyfile =
        ⟨certfile, keyfile, false⟩) ∧
    (pathExists fs "./.certs/server.crt" = true ∧
        pathExists fs "./.certs/server.key" = true →
      (generate_certs fs "./.certs").generated = false) := by
  refine ⟨?_, ?_, ?_⟩
  · rintro ⟨h1, h2⟩
    unfold load_ssl_certs
    rw [if_pos (by simp [h1, h2])]
  · intro h
    unfold load_ssl_certs
    rw [if_neg (by rcases h with h | h <;> simp [h])]
  · rintro ⟨h1, h2⟩
    unfold generate_certs
    rw [show ("./.certs" ++ "/server.crt" : String) = "./.certs/server.crt"
      from rfl]
    rw [show ("./.certs" ++ "/server.key" : String) = "./.certs/server.key"
      from rfl]
    rw [if_pos (by simp [pathExists] at h1 h2 ⊢; exact ⟨h1, h2⟩)]

/-- Witness for C7's theorem: both generated files present reuses them; a
present configured certfile keeps the configured pair. -/
theorem claim7_cert_selection_witness :
    (load_ssl_certs ["./.certs/server.crt", "./.certs/server.key"]
        "server.crt" "server.key" =
      generate_certs ["./.certs/server.crt", "./.certs/server.key"]
        "./.certs") ∧
    ((generate_certs ["./.certs/server.crt", "./.certs/server.key"]
        "./.certs").generated = false) ∧
    (load_ssl_certs ["server.crt"] "server.crt" "server.key" =
      ⟨"server.crt", "server.key", false⟩) :=
  ⟨(claim7_cert_selection ["./.certs/server.crt", "./.certs/server.key"]
      "server.crt" "server.key").1 ⟨by decide, by decide⟩,
    (claim7_cert_selection ["./.certs/server.crt", "./.certs/server.key"]
      "server.crt" "server.key").2.2 ⟨by decide, by decide⟩,
    (claim7_cert_selection ["server.crt"] "server.crt" "server.key").2.1
      (Or.inl (by decide))⟩

/-- Claim C8: evaluation of the accept-loop step at the failing input. With
`reread_on_query = false` in the config file, `read_config` leaves the value
as the raw string `"false"` (the boolean conversion is dead, see C3), whose
intended parse under the spec's boolean rule is false (`strToBool`), yet the
value is truthy to Python (`pyTruthy`), so the branch
`if self.configs.reread_on_query:` of `Server.receive` reloads the corpus:
the snapshot is replaced by the fresh file content and `loadDatabase` occurs,
contradicting the claim that a false `reread_on_query` leaves the snapshot
unchanged. -/
theorem claim8_falsey_string_still_reloads :
    strToBool "false" = false ∧
    pyTruthy (PyValue.str "false") = true ∧
    (receiveStep ⟨⟨"corpus.txt", PyValue.bool false⟩, ['o', 'l', 'd']⟩
        ⟨"corpus.txt", PyValue.str "false"⟩ ['n', 'e', 'w']).1.database =
      ['n', 'e', 'w'] ∧
    ReceiveEvent.loadDatabase ∈
      (receiveStep ⟨⟨"corpus.txt", PyValue.bool false⟩, ['o', 'l', 'd']⟩
        ⟨"corpus.txt", PyValue.str "false"⟩ ['n', 'e', 'w']).2 ∧
    (['n', 'e', 'w'] : List Char) ≠ ['o', 'l', 'd'] := by
  decide

/-- Claim C9: `read_file` raises `FileNotFoundError` if and only if the path
does not name an existing file at call time; when the file exists but an I/O
error occurs during reading, it returns the empty snapshot instead of
raising. -/
theorem claim9_read_file (isfile : Bool) (rr : Option (List (List Char))) :
    ((read_file isfile rr = ReadFileResult.fileNotFound) ↔ isfile = false) ∧
    read_file true none = ReadFileResult.ok [] := by
  constructor
  · cases isfile
    · simp [read_file]
    · cases rr <;> simp [read_file]
  · rfl
